import Mathlib

/-!
Verification of the `rewind` per-project file-version daemon.

This file shallowly embeds the core data model and operations of the
repository: the catalog of file versions and tags kept in
`internal/database/database.go`, the retention planner
(`GetVersionsForPurge`, `GetVersionsForPurgeByAge`,
`GetVersionsForPurgeBySize`), the snapshot engine's capture primitive
(`ProcessFile` in the watcher package), the ignore matcher
(`Watch.ShouldIgnore` in `internal/watcher/watch.go`), the event
debouncer (`EventDebouncer.ShouldProcess` in
`internal/events/notifier.go`), the rollback routine
(`performRollback` in `cmd/rollback.go`) and the tag operations
(`AddTag`, `GetVersionByTag`).

Modelling conventions:
* SQL rows become Lean structures; a catalog is a list of version rows
  plus a list of tag rows.  SQLite's `UNIQUE` / `PRIMARY KEY`
  constraints are stated as `Nodup` hypotheses where a claim needs
  them.
* Timestamps are natural numbers.  The code stores timestamps as
  `YYYY-MM-DD HH:MM:SS` strings and compares them with SQL `<`, which
  is chronological order, so `Nat` comparison is faithful.
* Go's `int`/`int64` only ever hold small non-negative counts and
  sizes here; they are embedded as `Nat` (except where a claim is
  about rejecting negative input, where `Int` is used).
* Functions that iterate a Go map grouped by `file_path` are embedded
  by iterating the catalog's paths in first-appearance order; all
  properties proved about the resulting plans are order-insensitive.
-/

namespace Rewind

open scoped List

/-- A row of the `versions` table (struct `FileVersion` in
`internal/database/database.go`). -/
structure FileVersion where
  id : Nat
  file_path : String
  version_number : Nat
  timestamp : Nat
  file_hash : String
  file_size : Nat
  storage_path : String
  deleted : Bool
deriving Repr, DecidableEq

/-- A row of the `tags` table (struct `Tag` in
`internal/database/database.go`). -/
structure TagRow where
  id : Nat
  version_id : Nat
  tag_name : String
  created_at : Nat
deriving Repr, DecidableEq

/-- The logical content of one project's `versions.db`. -/
structure Catalog where
  versions : List FileVersion
  tags : List TagRow
deriving Repr, DecidableEq

/-- `true` iff some `tags` row references version id `vid`
(the `LEFT JOIN tags ... t.version_id IS NULL` test in the purge
queries, negated). -/
def hasTag (c : Catalog) (vid : Nat) : Bool :=
  c.tags.any (fun t => t.version_id == vid)

/-- The distinct `file_path` values appearing in the catalog, in first
appearance order (stands in for SQL `GROUP BY file_path`). -/
def catalogPaths (c : Catalog) : List String :=
  (c.versions.map (fun v => v.file_path)).dedup

/-- The non-deleted rows of one `file_path`
(`WHERE deleted = 0` restricted to the path). -/
def nondeletedOf (c : Catalog) (p : String) : List FileVersion :=
  c.versions.filter (fun v => v.file_path == p && !v.deleted)

/-- `COUNT(*) ... WHERE deleted = 0 GROUP BY file_path` for path `p`
(the `fileCounts` map in `GetVersionsForPurgeByAge` /
`GetVersionsForPurgeBySize`). -/
def nondeletedCount (c : Catalog) (p : String) : Nat :=
  (nondeletedOf c p).length

/-- Sort rows by `version_number` descending (`ORDER BY
version_number DESC`; ties cannot arise under the
`(file_path, version_number)` uniqueness constraint). -/
def sortVersionDesc (l : List FileVersion) : List FileVersion :=
  l.insertionSort (fun a b => b.version_number ≤ a.version_number)

/-- Sort rows by `timestamp` descending (`ORDER BY timestamp DESC`
within one path). -/
def sortTimeDesc (l : List FileVersion) : List FileVersion :=
  l.insertionSort (fun a b => b.timestamp ≤ a.timestamp)

/-- Sort rows by `timestamp` ascending (`ORDER BY timestamp ASC`). -/
def sortTimeAsc (l : List FileVersion) : List FileVersion :=
  l.insertionSort (fun a b => a.timestamp ≤ b.timestamp)

/-- Concatenation of `f p` over the paths of `l` (the per-path loops
that build a purge plan). -/
def joinMap (l : List String) (f : String → List Nat) : List Nat :=
  match l with
  | [] => []
  | p :: rest => f p ++ joinMap rest f

/-- The keep-last candidate list for one path: its untagged,
non-deleted versions ordered by `version_number` DESC (the query in
`GetVersionsForPurge`, grouped by `file_path`). -/
def keepLastCandidates (c : Catalog) (p : String) : List FileVersion :=
  sortVersionDesc (c.versions.filter
    (fun v => v.file_path == p && !v.deleted && !hasTag c v.id))

/-- `DatabaseManager.GetVersionsForPurge` (database.go, keep-last
strategy).  Returns `none` for the `keepLast < 1` error, otherwise the
planned version ids: for each path, if the candidate count is ≤
`keepLast` the path contributes nothing, otherwise the candidates
after position `keepLast` are planned. -/
def GetVersionsForPurge (c : Catalog) (keepLast : Int) : Option (List Nat) :=
  if keepLast < 1 then none
  else some (joinMap (catalogPaths c) (fun p =>
    let versions := keepLastCandidates c p
    if versions.length ≤ keepLast.toNat then []
    else (versions.drop keepLast.toNat).map (fun v => v.id)))

/-- The older-than candidate list for one path: its untagged,
non-deleted versions with `timestamp < olderThan`, ordered by
`timestamp` DESC (the query in `GetVersionsForPurgeByAge`, grouped by
`file_path`). -/
def ageCandidates (c : Catalog) (olderThan : Nat) (p : String) : List FileVersion :=
  sortTimeDesc (c.versions.filter
    (fun v => v.file_path == p && !v.deleted && !hasTag c v.id
      && v.timestamp < olderThan))

/-- `DatabaseManager.GetVersionsForPurgeByAge` (database.go): per
path, when the candidates are at least as many as the path's total
non-deleted count the newest candidate is kept (`versions[1:]` is
planned), otherwise all candidates are planned. -/
def GetVersionsForPurgeByAge (c : Catalog) (olderThan : Nat) : List Nat :=
  joinMap (catalogPaths c) (fun p =>
    let versions := ageCandidates c olderThan p
    if nondeletedCount c p ≤ versions.length then
      (versions.drop 1).map (fun v => v.id)
    else versions.map (fun v => v.id))

/-- `SUM(file_size) ... WHERE deleted = 0` (the `currentSize` query in
`GetVersionsForPurgeBySize`). -/
def totalNondeletedSize (c : Catalog) : Nat :=
  (c.versions.filter (fun v => !v.deleted)).foldl
    (fun acc v => acc + v.file_size) 0

/-- The max-size candidate list: all untagged non-deleted versions
ordered by `timestamp` ASC (oldest first). -/
def sizeCandidates (c : Catalog) : List FileVersion :=
  sortTimeAsc (c.versions.filter (fun v => !v.deleted && !hasTag c v.id))

/-- The greedy victim-selection loop of `GetVersionsForPurgeBySize`:
walk the candidates oldest first, skip any whose removal would leave
its file with zero non-deleted versions
(`filesToRemove[path]+1 >= fileCounts[path]`), and stop as soon as the
removed size reaches `sizeToRemove`.  Returns the selected rows (the
code accumulates their ids; the ids are taken afterwards). -/
def greedySelect (fileCounts : String → Nat) (sizeToRemove : Nat) :
    List FileVersion → Nat → (String → Nat) → List FileVersion
  | [], _, _ => []
  | v :: rest, removedSize, filesToRemove =>
    if fileCounts v.file_path ≤ filesToRemove v.file_path + 1 then
      greedySelect fileCounts sizeToRemove rest removedSize filesToRemove
    else
      v :: (if sizeToRemove ≤ removedSize + v.file_size then []
        else greedySelect fileCounts sizeToRemove rest
          (removedSize + v.file_size)
          (fun q => if q == v.file_path then filesToRemove q + 1
            else filesToRemove q))

/-- `DatabaseManager.GetVersionsForPurgeBySize` (database.go): empty
plan when the current total non-deleted size is within `maxSize`,
otherwise the greedy selection above. -/
def GetVersionsForPurgeBySize (c : Catalog) (maxSize : Nat) : List Nat :=
  let currentSize := totalNondeletedSize c
  if currentSize ≤ maxSize then []
  else (greedySelect (fun p => nondeletedCount c p) (currentSize - maxSize)
    (sizeCandidates c) 0 (fun _ => 0)).map (fun v => v.id)

/-- One step of the `MAX(version_number)` row selection performed by
`ORDER BY version_number DESC LIMIT 1`. -/
def latestStep (acc : Option FileVersion) (v : FileVersion) : Option FileVersion :=
  match acc with
  | none => some v
  | some w => if w.version_number < v.version_number then some v else some w

/-- `DatabaseManager.GetLatestFileVersion` (database.go): the row of
`p` with the highest `version_number`, or `none`
(`ORDER BY version_number DESC LIMIT 1`). -/
def GetLatestFileVersion (c : Catalog) (p : String) : Option FileVersion :=
  (c.versions.filter (fun v => v.file_path == p)).foldl latestStep none

/-- `DatabaseManager.GetNextVersionNumber` (database.go):
`COALESCE(MAX(version_number), 0) + 1` for path `p`. -/
def GetNextVersionNumber (c : Catalog) (p : String) : Nat :=
  (c.versions.filter (fun v => v.file_path == p)).foldl
    (fun acc v => max acc v.version_number) 0 + 1

/-- A fresh `id` for an inserted row (SQLite `AUTOINCREMENT`): one
more than the largest id in use. -/
def freshId (c : Catalog) : Nat :=
  c.versions.foldl (fun acc v => max acc v.id) 0 + 1

/-- `DatabaseManager.AddFileVersion` (database.go): append a new
`versions` row. -/
def AddFileVersion (c : Catalog) (fv : FileVersion) : Catalog :=
  { c with versions := c.versions ++ [fv] }

/-- Outcome of one `ProcessFile` call: the action string it returns,
the catalog afterwards, and the storage paths of the snapshot files it
wrote into `<root>/.rewind/versions/`. -/
structure ProcessOutcome where
  action : String
  catalog : Catalog
  storeWrites : List String
deriving Repr, DecidableEq

/-- `WatchManager.addFileToDatabase` (watcher package): pick the next
version number, copy the file to a storage path `sp`, and insert the
row.  `hash` and `size` are the already-computed SHA-256 and size of
the file; `now` is the capture time. -/
def addFileToDatabase (c : Catalog) (relPath : String) (hash : String)
    (size : Nat) (now : Nat) (sp : String) : Catalog × List String :=
  let n := GetNextVersionNumber c relPath
  let fv : FileVersion :=
    { id := freshId c, file_path := relPath, version_number := n,
      timestamp := now, file_hash := hash, file_size := size,
      storage_path := sp, deleted := false }
  (AddFileVersion c fv, [sp])

/-- `WatchManager.ProcessFile` (watcher package): stat and hash the
file (both given here as `hash`/`size`), look up the latest catalog
row, and take the `new` / `unchanged` / `updated` branch. -/
def ProcessFile (c : Catalog) (relPath : String) (hash : String)
    (size : Nat) (now : Nat) (sp : String) : ProcessOutcome :=
  match GetLatestFileVersion c relPath with
  | none =>
    let r := addFileToDatabase c relPath hash size now sp
    { action := "new", catalog := r.1, storeWrites := r.2 }
  | some latestVersion =>
    if latestVersion.file_hash == hash then
      { action := "unchanged", catalog := c, storeWrites := [] }
    else
      let r := addFileToDatabase c relPath hash size now sp
      { action := "updated", catalog := r.1, storeWrites := r.2 }

/-- `DatabaseManager.MarkFileDeleted` (database.go): set `deleted = 1`
and bump the timestamp on the latest row of `p`; `none` when `p` has
no rows. -/
def MarkFileDeleted (c : Catalog) (p : String) (now : Nat) : Option Catalog :=
  match GetLatestFileVersion c p with
  | none => none
  | some latestVersion =>
    some { c with versions := c.versions.map (fun v =>
      if v.file_path == p && v.version_number == latestVersion.version_number
      then { v with deleted := true, timestamp := now } else v) }

/-- The set of `file_path` values returned by
`DatabaseManager.GetAllDeletedFiles` (database.go).  The SQL is
`SELECT ... FROM versions WHERE deleted = 1 GROUP BY file_path`: every
path having at least one `deleted` row produces one result row. -/
def GetAllDeletedFilePaths (c : Catalog) : List String :=
  ((c.versions.filter (fun v => v.deleted)).map (fun v => v.file_path)).dedup

/-- Observable effect of the store step on the destination snapshot
file: whether the destination file exists on disk when the call
returns, and whether the call reported an error. -/
structure StoreEffect where
  dstExists : Bool
  errored : Bool
deriving Repr, DecidableEq

/-- `WatchManager.copyFile` (watcher package), as an effect over the
destination file.  `os.Create` makes the destination exist; a failure
of `io.Copy` or of `Sync` returns the error with the partial
destination still in place (the function has no unlink path). -/
def copyFileEffect (createOk copyOk syncOk : Bool) : StoreEffect :=
  if !createOk then { dstExists := false, errored := true }
  else if !copyOk then { dstExists := true, errored := true }
  else if !syncOk then { dstExists := true, errored := true }
  else { dstExists := true, errored := false }

/-- The store-and-insert tail of `WatchManager.addFileToDatabase`
(watcher package), as an effect over the destination snapshot file:
`os.MkdirAll` has already created the intermediate directories
(`mkdirOk`); then `copyFile` runs, and on success the catalog insert
runs; only an insert failure triggers `os.Remove(fullStoragePath)`. -/
def addFileToDatabaseEffect (mkdirOk createOk copyOk syncOk insertOk : Bool) :
    StoreEffect :=
  if !mkdirOk then { dstExists := false, errored := true }
  else
    let ce := copyFileEffect createOk copyOk syncOk
    if ce.errored then { dstExists := ce.dstExists, errored := true }
    else if insertOk then { dstExists := true, errored := false }
    else { dstExists := false, errored := true }

/-- Go's `filepath.Base` for slash-separated paths: `"."` for the
empty string, trailing slashes dropped, then everything after the last
slash, or `"/"` when nothing remains. -/
def goBase (path : String) : String :=
  if path == "" then "."
  else
    let p := String.mk ((path.data.reverse.dropWhile (fun ch => ch = '/')).reverse)
    let b := (p.splitOn "/").getLastD ""
    if b == "" then "/" else b

/-- One pattern test of `Watch.ShouldIgnore`
(`internal/watcher/watch.go`), for an already-computed slash-form
relative path.  `globMatch` stands for Go's `filepath.Match` with a
`Match` error counted as a non-match (the code discards the error:
`matched, _ := filepath.Match(...)`).  A pattern ending in `/` is a
directory pattern: its prefix is matched against every `/`-separated
component of the path, and the full pattern against a prefix of
`relPath ++ "/"`.  Any other pattern is matched against the basename,
the full relative path, and every component. -/
def patternMatches (globMatch : String → String → Bool)
    (pattern relPath : String) : Bool :=
  if pattern.endsWith "/" then
    let dirPattern := pattern.dropRight 1
    (relPath.splitOn "/").any (fun part => globMatch dirPattern part)
    || (relPath ++ "/").startsWith pattern
  else
    globMatch pattern (goBase relPath)
    || globMatch pattern relPath
    || (relPath.splitOn "/").any (fun part => globMatch pattern part)

/-- `Watch.ShouldIgnore` (`internal/watcher/watch.go`): `rel` is the
result of `filepath.Rel(w.Path, path)` (already in slash form; Go's
`ToSlash` is the identity on Unix), with `none` for a failed relative
computation, which is fail-open `false`.  Otherwise the pattern list
is scanned and the first match returns `true`. -/
def ShouldIgnore (globMatch : String → String → Bool)
    (patterns : List String) (rel : Option String) : Bool :=
  match rel with
  | none => false
  | some relPath => patterns.any (fun pattern => patternMatches globMatch pattern relPath)

/-- The debouncer map of `EventDebouncer`
(`internal/events/notifier.go`): association list from key (the
string `filePath ++ ":" ++ eventType`) to the last admitted wall-clock
time, in milliseconds. -/
abbrev DebMap := List (String × Nat)

/-- The debouncer key built in `EventDebouncer.ShouldProcess`. -/
def debKey (filePath eventType : String) : String :=
  filePath ++ ":" ++ eventType

/-- Map lookup in the debouncer's `events` map. -/
def debLookup (m : DebMap) (k : String) : Option Nat :=
  (m.find? (fun q => q.1 == k)).map (fun q => q.2)

/-- Map update `d.events[key] = now`. -/
def debInsert (m : DebMap) (k : String) (now : Nat) : DebMap :=
  (k, now) :: m.filter (fun q => !(q.1 == k))

/-- The cleanup pass of `EventDebouncer.ShouldProcess`: when the map
holds more than 1000 keys, delete every entry whose time is before
`now - 5s`. -/
def debCleanup (m : DebMap) (now : Nat) : DebMap :=
  if 1000 < m.length then m.filter (fun q => !(q.2 < now - 5000)) else m

/-- `EventDebouncer.ShouldProcess` (`internal/events/notifier.go`):
reject when the key's entry is within the last 100 ms; otherwise
record `now` under the key, run the cleanup pass, and admit. -/
def shouldProcess (m : DebMap) (k : String) (now : Nat) : Bool × DebMap :=
  match debLookup m k with
  | some lastTime =>
    if now - lastTime < 100 then (false, m)
    else (true, debCleanup (debInsert m k now) now)
  | none => (true, debCleanup (debInsert m k now) now)

/-- Run a trace of `(key, time)` events through the debouncer from
state `m`, collecting the admitted events. -/
def runAdmitted (m : DebMap) : List (String × Nat) → List (String × Nat)
  | [] => []
  | (k, t) :: rest =>
    if (shouldProcess m k t).1 = true then
      (k, t) :: runAdmitted (shouldProcess m k t).2 rest
    else runAdmitted (shouldProcess m k t).2 rest

/-- `DatabaseManager.GetFileVersion` (database.go): the row with the
given `(file_path, version_number)`, or `none`. -/
def GetFileVersion (c : Catalog) (p : String) (n : Nat) : Option FileVersion :=
  c.versions.find? (fun v => v.file_path == p && v.version_number == n)

/-- The filesystem state `performRollback` touches: the content of the
working-tree file being rolled back (`none` when it does not exist)
and the snapshot store under `<root>/.rewind/versions/`, keyed by
`storage_path`. -/
structure RollbackFS where
  currentContent : Option String
  snapshots : List (String × String)
deriving Repr, DecidableEq

/-- Look a snapshot up by storage path (`os.Stat(storedVersionPath)` /
reading the stored bytes). -/
def snapshotContent (fs : RollbackFS) (sp : String) : Option String :=
  (fs.snapshots.find? (fun q => q.1 == sp)).map (fun q => q.2)

/-- Result of `performRollback`: whether it returned without error,
plus the catalog and filesystem afterwards. -/
structure RollbackResult where
  ok : Bool
  catalog : Catalog
  fs : RollbackFS
deriving Repr, DecidableEq

/-- `saveCurrentFileAsNewVersion` (cmd/rollback.go): snapshot the
current working-tree content `content` into the store at a fresh
storage path `sp` and insert a catalog row for it (timestamp taken
from the file's mtime `mtime`). -/
def saveCurrentFileAsNewVersion (hash : String → String) (c : Catalog)
    (fs : RollbackFS) (relPath : String) (content : String) (mtime : Nat)
    (sp : String) : Catalog × RollbackFS :=
  let n := GetNextVersionNumber c relPath
  let fv : FileVersion :=
    { id := freshId c, file_path := relPath, version_number := n,
      timestamp := mtime, file_hash := hash content,
      file_size := content.length, storage_path := sp, deleted := false }
  (AddFileVersion c fv, { fs with snapshots := fs.snapshots ++ [(sp, content)] })

/-- `performRollback` (cmd/rollback.go), for the default
non-interactive invocation (the optional `--confirm` prompt is user
I/O and is not modelled; `findRewindRoot` already succeeded in
`runRollback` on the same path, so the root is ambient).  `hash`
abstracts SHA-256; `mtime` and `sp` are the mtime and fresh storage
path used if the current content must be saved first. -/
def performRollback (hash : String → String) (c : Catalog) (fs : RollbackFS)
    (relPath : String) (targetVersion : Nat) (mtime : Nat) (sp : String) :
    RollbackResult :=
  match GetFileVersion c relPath targetVersion with
  | none => { ok := false, catalog := c, fs := fs }
  | some targetVersionData =>
    if targetVersionData.deleted then { ok := false, catalog := c, fs := fs }
    else
      match GetLatestFileVersion c relPath with
      | none => { ok := false, catalog := c, fs := fs }
      | some latestVersion =>
        if latestVersion.version_number = targetVersion then
          { ok := false, catalog := c, fs := fs }
        else
          match fs.currentContent with
          | none => { ok := false, catalog := c, fs := fs }
          | some content =>
            match snapshotContent fs targetVersionData.storage_path with
            | none => { ok := false, catalog := c, fs := fs }
            | some stored =>
              let r :=
                if hash content = latestVersion.file_hash then (c, fs)
                else saveCurrentFileAsNewVersion hash c fs relPath content mtime sp
              { ok := true, catalog := r.1,
                fs := { r.2 with currentContent := some stored } }

/-- `DatabaseManager.AddTag` (database.go): look up the undeleted row
with the given `(file_path, version_number)` (`none` when absent —
"version not found"), then insert the tag row unless the
`UNIQUE(version_id, tag_name)` constraint fires. -/
def AddTag (c : Catalog) (p : String) (versionNumber : Nat) (tagName : String)
    (now tid : Nat) : Option Catalog :=
  match c.versions.find? (fun v =>
      v.file_path == p && v.version_number == versionNumber && !v.deleted) with
  | none => none
  | some v =>
    if c.tags.any (fun t => t.version_id == v.id && t.tag_name == tagName) then
      none
    else
      some { c with tags := c.tags ++
        [{ id := tid, version_id := v.id, tag_name := tagName, created_at := now }] }

/-- `DatabaseManager.GetVersionByTag` (database.go): the first
undeleted row of `p` referenced by a tag row named `tagName`
(`QueryRow` over the join). -/
def GetVersionByTag (c : Catalog) (p : String) (tagName : String) :
    Option FileVersion :=
  c.versions.find? (fun v => v.file_path == p && !v.deleted
    && c.tags.any (fun t => t.version_id == v.id && t.tag_name == tagName))

/-! ### Supporting lemmas -/

theorem filter_sublist_filter_of_imp {α : Type} (p q : α → Bool) (l : List α)
    (h : ∀ a, p a = true → q a = true) : l.filter p <+ l.filter q := by
  induction l with
  | nil => simp
  | cons a t ih =>
    cases hpa : p a with
    | true =>
      have hqa := h a hpa
      simp only [List.filter_cons, hpa, hqa, if_true]
      exact ih.cons₂ a
    | false =>
      cases hqa : q a with
      | true =>
        simp only [List.filter_cons, hpa, hqa]
        exact ih.cons a
      | false =>
        simp only [List.filter_cons, hpa, hqa]
        exact ih

theorem mem_joinMap {x : Nat} {l : List String} {f : String → List Nat} :
    x ∈ joinMap l f ↔ ∃ p ∈ l, x ∈ f p := by
  induction l with
  | nil => simp [joinMap]
  | cons a t ih => simp [joinMap, List.mem_append, ih]

theorem length_le_of_subset_nodup {α : Type} {l₁ l₂ : List α}
    (h₁ : l₁.Nodup) (h : l₁ ⊆ l₂) : l₁.length ≤ l₂.length :=
  (h₁.subperm h).length_le

theorem rows_injOn_of_nodup_ids {c : Catalog}
    (hids : (c.versions.map (fun v => v.id)).Nodup) {v w : FileVersion}
    (hv : v ∈ c.versions) (hw : w ∈ c.versions) (heq : v.id = w.id) : v = w :=
  List.inj_on_of_nodup_map hids hv hw heq

theorem mem_keepLastCandidates {c : Catalog} {p : String} {v : FileVersion} :
    v ∈ keepLastCandidates c p ↔
      v ∈ c.versions ∧ v.file_path = p ∧ v.deleted = false ∧ hasTag c v.id = false := by
  unfold keepLastCandidates sortVersionDesc
  rw [(List.perm_insertionSort _ _).mem_iff, List.mem_filter]
  simp [Bool.and_eq_true, and_assoc]

theorem mem_ageCandidates {c : Catalog} {olderThan : Nat} {p : String} {v : FileVersion} :
    v ∈ ageCandidates c olderThan p ↔
      v ∈ c.versions ∧ v.file_path = p ∧ v.deleted = false ∧ hasTag c v.id = false
        ∧ v.timestamp < olderThan := by
  unfold ageCandidates sortTimeDesc
  rw [(List.perm_insertionSort _ _).mem_iff, List.mem_filter]
  simp [Bool.and_eq_true, and_assoc]

theorem mem_sizeCandidates {c : Catalog} {v : FileVersion} :
    v ∈ sizeCandidates c ↔
      v ∈ c.versions ∧ v.deleted = false ∧ hasTag c v.id = false := by
  unfold sizeCandidates sortTimeAsc
  rw [(List.perm_insertionSort _ _).mem_iff, List.mem_filter]
  simp [Bool.and_eq_true, and_assoc]

theorem mem_nondeletedOf {c : Catalog} {p : String} {v : FileVersion} :
    v ∈ nondeletedOf c p ↔ v ∈ c.versions ∧ v.file_path = p ∧ v.deleted = false := by
  unfold nondeletedOf
  rw [List.mem_filter]
  simp [Bool.and_eq_true, and_assoc]

theorem nodup_filter_ids {c : Catalog}
    (hids : (c.versions.map (fun v => v.id)).Nodup) (q : FileVersion → Bool) :
    ((c.versions.filter q).map (fun v => v.id)).Nodup :=
  ((List.filter_sublist c.versions).map (fun v => v.id)).nodup hids

theorem nodup_keepLastCandidates_ids {c : Catalog} {p : String}
    (hids : (c.versions.map (fun v => v.id)).Nodup) :
    ((keepLastCandidates c p).map (fun v => v.id)).Nodup := by
  unfold keepLastCandidates sortVersionDesc
  exact ((List.perm_insertionSort
      (fun a b : FileVersion => b.version_number ≤ a.version_number) _).map
      (fun v => v.id)).nodup_iff.mpr (nodup_filter_ids hids _)

theorem nodup_ageCandidates_ids {c : Catalog} {olderThan : Nat} {p : String}
    (hids : (c.versions.map (fun v => v.id)).Nodup) :
    ((ageCandidates c olderThan p).map (fun v => v.id)).Nodup := by
  unfold ageCandidates sortTimeDesc
  exact ((List.perm_insertionSort
      (fun a b : FileVersion => b.timestamp ≤ a.timestamp) _).map
      (fun v => v.id)).nodup_iff.mpr (nodup_filter_ids hids _)

theorem nodup_sizeCandidates_ids {c : Catalog}
    (hids : (c.versions.map (fun v => v.id)).Nodup) :
    ((sizeCandidates c).map (fun v => v.id)).Nodup := by
  unfold sizeCandidates sortTimeAsc
  exact ((List.perm_insertionSort
      (fun a b : FileVersion => a.timestamp ≤ b.timestamp) _).map
      (fun v => v.id)).nodup_iff.mpr (nodup_filter_ids hids _)

/-- Retention safety (spec §3 invariant 6 / §8 "Retention safety"):
no planned id belongs to a tagged version, and every `file_path` that
has a non-deleted version also has a non-deleted version outside the
plan. -/
def PlanSafe (c : Catalog) (plan : List Nat) : Prop :=
  (∀ v ∈ c.versions, hasTag c v.id = true → v.id ∉ plan) ∧
  (∀ p : String, (∃ v ∈ c.versions, v.file_path = p ∧ v.deleted = false) →
    ∃ v ∈ c.versions, v.file_path = p ∧ v.deleted = false ∧ v.id ∉ plan)

theorem tagged_not_mem_plan {c : Catalog} (dropped : String → List FileVersion)
    (hsub : ∀ p, ∀ w, w ∈ dropped p → hasTag c w.id = false)
    {v : FileVersion} (htag : hasTag c v.id = true) :
    v.id ∉ joinMap (catalogPaths c) (fun p => (dropped p).map (fun w => w.id)) := by
  intro hmem
  rcases mem_joinMap.mp hmem with ⟨p, _, hx⟩
  rcases List.mem_map.mp hx with ⟨w, hw, hwid⟩
  have hfalse := hsub p w hw
  rw [hwid] at hfalse
  rw [hfalse] at htag
  cases htag

theorem not_mem_plan_of_survivor {c : Catalog}
    (hids : (c.versions.map (fun v => v.id)).Nodup)
    (dropped : String → List FileVersion)
    (hsub : ∀ p, ∀ w, w ∈ dropped p → w ∈ c.versions ∧ w.file_path = p)
    {u : FileVersion} (hu : u ∈ c.versions)
    (hnot : u ∉ dropped u.file_path) :
    u.id ∉ joinMap (catalogPaths c) (fun p => (dropped p).map (fun w => w.id)) := by
  intro hmem
  rcases mem_joinMap.mp hmem with ⟨p, _, hx⟩
  rcases List.mem_map.mp hx with ⟨w, hw, hwid⟩
  obtain ⟨hwmem, hwpath⟩ := hsub p w hw
  have hweq : w = u := rows_injOn_of_nodup_ids hids hwmem hu hwid
  subst hweq
  rw [hwpath] at hnot
  exact hnot hw

theorem head_not_mem_drop {a : FileVersion} {t : List FileVersion}
    (hnd : ((a :: t).map (fun v => v.id)).Nodup) {k : Nat} (hk : 1 ≤ k) :
    a ∉ (a :: t).drop k := by
  intro hmem
  obtain ⟨j, rfl⟩ : ∃ j, k = j + 1 := ⟨k - 1, by omega⟩
  rw [List.drop_succ_cons] at hmem
  have hat : a ∈ t := List.drop_subset _ _ hmem
  rw [List.map_cons] at hnd
  exact (List.nodup_cons.mp hnd).1 (List.mem_map.mpr ⟨a, hat, rfl⟩)

theorem exists_not_mem_of_length_lt {α : Type} {l₁ l₂ : List α}
    (hnd : l₂.Nodup) (hlt : l₁.length < l₂.length) :
    ∃ x ∈ l₂, x ∉ l₁ := by
  by_contra hcon
  push_neg at hcon
  have hsub : l₂ ⊆ l₁ := fun x hx => hcon x hx
  exact absurd (length_le_of_subset_nodup hnd hsub) (by omega)

theorem ageCandidates_length_le {c : Catalog} (olderThan : Nat) (p : String)
    (hids : (c.versions.map (fun v => v.id)).Nodup) :
    (ageCandidates c olderThan p).length ≤ nondeletedCount c p := by
  have hnd : (ageCandidates c olderThan p).Nodup :=
    (nodup_ageCandidates_ids hids).of_map
  have hsub : ageCandidates c olderThan p ⊆ nondeletedOf c p := by
    intro x hx
    rcases mem_ageCandidates.mp hx with ⟨h1, h2, h3, _, _⟩
    exact mem_nondeletedOf.mpr ⟨h1, h2, h3⟩
  exact length_le_of_subset_nodup hnd hsub

theorem joinMap_congr {l : List String} {f g : String → List Nat}
    (h : ∀ p, f p = g p) : joinMap l f = joinMap l g := by
  induction l with
  | nil => rfl
  | cons a t ih => simp only [joinMap, h a, ih]

theorem getVersionsForPurge_eq (c : Catalog) {N : Int} (hN : 1 ≤ N) :
    GetVersionsForPurge c N = some (joinMap (catalogPaths c)
      (fun p => ((keepLastCandidates c p).drop N.toNat).map (fun v => v.id))) := by
  unfold GetVersionsForPurge
  rw [if_neg (by omega)]
  congr 1
  apply joinMap_congr
  intro p
  by_cases h : (keepLastCandidates c p).length ≤ N.toNat
  · simp only [if_pos h, List.drop_eq_nil_of_le h, List.map_nil]
  · simp only [if_neg h]

theorem keepLast_planSafe (c : Catalog)
    (hids : (c.versions.map (fun v => v.id)).Nodup)
    {k : Nat} (hk : 1 ≤ k) :
    PlanSafe c (joinMap (catalogPaths c)
      (fun p => ((keepLastCandidates c p).drop k).map (fun v => v.id))) := by
  have hsub : ∀ p, ∀ w, w ∈ (keepLastCandidates c p).drop k →
      w ∈ c.versions ∧ w.file_path = p ∧ w.deleted = false ∧ hasTag c w.id = false :=
    fun p w hw => mem_keepLastCandidates.mp (List.drop_subset _ _ hw)
  constructor
  · intro v _ htag
    exact tagged_not_mem_plan _ (fun p w hw => (hsub p w hw).2.2.2) htag
  · rintro p₀ ⟨u, hu, hupath, hudel⟩
    cases hcand : keepLastCandidates c p₀ with
    | nil =>
      refine ⟨u, hu, hupath, hudel, ?_⟩
      apply not_mem_plan_of_survivor hids _
        (fun p w hw => ⟨(hsub p w hw).1, (hsub p w hw).2.1⟩) hu
      rw [hupath, hcand]
      simp
    | cons a t =>
      have hamem : a ∈ keepLastCandidates c p₀ := by rw [hcand]; exact List.mem_cons_self a t
      rcases mem_keepLastCandidates.mp hamem with ⟨h1, h2, h3, _⟩
      refine ⟨a, h1, h2, h3, ?_⟩
      apply not_mem_plan_of_survivor hids _
        (fun p w hw => ⟨(hsub p w hw).1, (hsub p w hw).2.1⟩) h1
      rw [h2, hcand]
      have hnd : ((a :: t).map (fun v => v.id)).Nodup := by
        rw [← hcand]; exact nodup_keepLastCandidates_ids hids
      exact head_not_mem_drop hnd hk

/-- The per-path rows planned by the older-than strategy. -/
def droppedByAge (c : Catalog) (olderThan : Nat) (p : String) : List FileVersion :=
  if nondeletedCount c p ≤ (ageCandidates c olderThan p).length then
    (ageCandidates c olderThan p).drop 1
  else ageCandidates c olderThan p

theorem byAge_plan_eq (c : Catalog) (olderThan : Nat) :
    GetVersionsForPurgeByAge c olderThan = joinMap (catalogPaths c)
      (fun p => (droppedByAge c olderThan p).map (fun v => v.id)) := by
  unfold GetVersionsForPurgeByAge
  apply joinMap_congr
  intro p
  unfold droppedByAge
  by_cases h : nondeletedCount c p ≤ (ageCandidates c olderThan p).length
  · simp only [if_pos h]
  · simp only [if_neg h]

theorem mem_droppedByAge {c : Catalog} {olderThan : Nat} {p : String} {w : FileVersion}
    (hw : w ∈ droppedByAge c olderThan p) : w ∈ ageCandidates c olderThan p := by
  unfold droppedByAge at hw
  by_cases h : nondeletedCount c p ≤ (ageCandidates c olderThan p).length
  · rw [if_pos h] at hw
    exact List.drop_subset _ _ hw
  · rwa [if_neg h] at hw

theorem byAge_planSafe (c : Catalog)
    (hids : (c.versions.map (fun v => v.id)).Nodup) (olderThan : Nat) :
    PlanSafe c (GetVersionsForPurgeByAge c olderThan) := by
  rw [byAge_plan_eq]
  have hsub : ∀ p, ∀ w, w ∈ droppedByAge c olderThan p →
      w ∈ c.versions ∧ w.file_path = p ∧ w.deleted = false ∧ hasTag c w.id = false := by
    intro p w hw
    rcases mem_ageCandidates.mp (mem_droppedByAge hw) with ⟨h1, h2, h3, h4, _⟩
    exact ⟨h1, h2, h3, h4⟩
  constructor
  · intro v _ htag
    exact tagged_not_mem_plan _ (fun p w hw => (hsub p w hw).2.2.2) htag
  · rintro p₀ ⟨u, hu, hupath, hudel⟩
    have hu' : u ∈ nondeletedOf c p₀ := mem_nondeletedOf.mpr ⟨hu, hupath, hudel⟩
    have htot : 1 ≤ nondeletedCount c p₀ := by
      unfold nondeletedCount
      cases hn : (nondeletedOf c p₀).length with
      | zero => rw [List.length_eq_zero] at hn; rw [hn] at hu'; cases hu'
      | succ n => omega
    by_cases hbr : nondeletedCount c p₀ ≤ (ageCandidates c olderThan p₀).length
    · cases hcand : ageCandidates c olderThan p₀ with
      | nil => rw [hcand] at hbr; simp at hbr; omega
      | cons a t =>
        have hamem : a ∈ ageCandidates c olderThan p₀ := by
          rw [hcand]; exact List.mem_cons_self a t
        rcases mem_ageCandidates.mp hamem with ⟨h1, h2, h3, _, _⟩
        refine ⟨a, h1, h2, h3, ?_⟩
        apply not_mem_plan_of_survivor hids _
          (fun p w hw => ⟨(hsub p w hw).1, (hsub p w hw).2.1⟩) h1
        unfold droppedByAge
        rw [h2, if_pos hbr, hcand]
        have hnd : ((a :: t).map (fun v => v.id)).Nodup := by
          rw [← hcand]; exact nodup_ageCandidates_ids hids
        exact head_not_mem_drop hnd (le_refl 1)
    · push_neg at hbr
      have hndd : (nondeletedOf c p₀).Nodup := (nodup_filter_ids hids _).of_map
      obtain ⟨x, hx, hxnot⟩ := exists_not_mem_of_length_lt hndd hbr
      rcases mem_nondeletedOf.mp hx with ⟨h1, h2, h3⟩
      refine ⟨x, h1, h2, h3, ?_⟩
      apply not_mem_plan_of_survivor hids _
        (fun p w hw => ⟨(hsub p w hw).1, (hsub p w hw).2.1⟩) h1
      unfold droppedByAge
      rw [h2, if_neg (by omega)]
      exact hxnot

theorem greedySelect_sublist (fc : String → Nat) (str : Nat) :
    ∀ (l : List FileVersion) (rs : Nat) (ftr : String → Nat),
      List.Sublist (greedySelect fc str l rs ftr) l := by
  intro l
  induction l with
  | nil => intro rs ftr; exact List.Sublist.refl _
  | cons v rest ih =>
    intro rs ftr
    unfold greedySelect
    by_cases hskip : fc v.file_path ≤ ftr v.file_path + 1
    · rw [if_pos hskip]
      exact (ih rs ftr).cons v
    · rw [if_neg hskip]
      by_cases hstop : str ≤ rs + v.file_size
      · rw [if_pos hstop]
        exact (List.nil_sublist rest).cons₂ v
      · rw [if_neg hstop]
        exact (ih _ _).cons₂ v

theorem greedySelect_count (fc : String → Nat) (str : Nat) (p : String) :
    ∀ (l : List FileVersion) (rs : Nat) (ftr : String → Nat),
      (greedySelect fc str l rs ftr).countP (fun v => v.file_path == p) + ftr p < fc p
      ∨ (greedySelect fc str l rs ftr).countP (fun v => v.file_path == p) = 0 := by
  intro l
  induction l with
  | nil => intro rs ftr; right; rfl
  | cons v rest ih =>
    intro rs ftr
    unfold greedySelect
    by_cases hskip : fc v.file_path ≤ ftr v.file_path + 1
    · rw [if_pos hskip]
      exact ih rs ftr
    · rw [if_neg hskip]
      push_neg at hskip
      by_cases hp : v.file_path = p
      · subst hp
        by_cases hstop : str ≤ rs + v.file_size
        · rw [if_pos hstop]
          left
          simp only [List.countP_cons, List.countP_nil, beq_self_eq_true, if_pos]
          omega
        · rw [if_neg hstop]
          rcases ih (rs + v.file_size)
              (fun q => if q == v.file_path then ftr q + 1 else ftr q) with h | h
          · left
            simp only [beq_self_eq_true, if_pos] at h
            simp only [List.countP_cons, beq_self_eq_true, if_pos]
            omega
          · left
            simp only [List.countP_cons, beq_self_eq_true, if_pos, h]
            omega
      · have hbeq : (v.file_path == p) = false := beq_eq_false_iff_ne.mpr hp
        by_cases hstop : str ≤ rs + v.file_size
        · rw [if_pos hstop]
          right
          simp [List.countP_cons, hbeq]
        · rw [if_neg hstop]
          rcases ih (rs + v.file_size)
              (fun q => if q == v.file_path then ftr q + 1 else ftr q) with h | h
          · left
            have hq : (p == v.file_path) = false :=
              beq_eq_false_iff_ne.mpr (fun he => hp he.symm)
            simp only [hq, Bool.false_eq_true, if_false] at h
            simp only [List.countP_cons, hbeq, Bool.false_eq_true, if_false]
            omega
          · right
            simp only [List.countP_cons, hbeq, Bool.false_eq_true, if_false, h]

theorem bySize_planSafe (c : Catalog)
    (hids : (c.versions.map (fun v => v.id)).Nodup) (maxSize : Nat) :
    PlanSafe c (GetVersionsForPurgeBySize c maxSize) := by
  unfold GetVersionsForPurgeBySize
  by_cases hfit : totalNondeletedSize c ≤ maxSize
  · rw [if_pos hfit]
    exact ⟨fun v _ _ hmem => (List.not_mem_nil _ hmem),
      fun p ⟨u, hu, h2, h3⟩ => ⟨u, hu, h2, h3, fun hmem => List.not_mem_nil _ hmem⟩⟩
  · rw [if_neg hfit]
    set G := greedySelect (fun p => nondeletedCount c p)
      (totalNondeletedSize c - maxSize) (sizeCandidates c) 0 (fun _ => 0) with hG
    have hGsub : ∀ w ∈ G, w ∈ sizeCandidates c := by
      intro w hw
      exact (greedySelect_sublist _ _ _ _ _).subset hw
    constructor
    · intro v _ htag hmem
      rcases List.mem_map.mp hmem with ⟨w, hw, hwid⟩
      have hwtag : hasTag c w.id = false := (mem_sizeCandidates.mp (hGsub w hw)).2.2
      rw [hwid, htag] at hwtag
      cases hwtag
    · rintro p₀ ⟨u, hu, hupath, hudel⟩
      have hu' : u ∈ nondeletedOf c p₀ := mem_nondeletedOf.mpr ⟨hu, hupath, hudel⟩
      have htot : 1 ≤ nondeletedCount c p₀ := by
        unfold nondeletedCount
        cases hn : (nondeletedOf c p₀).length with
        | zero => rw [List.length_eq_zero] at hn; rw [hn] at hu'; cases hu'
        | succ n => omega
      have hcnt : (G.countP (fun v => v.file_path == p₀)) < nondeletedCount c p₀ := by
        rcases greedySelect_count (fun p => nondeletedCount c p)
            (totalNondeletedSize c - maxSize) p₀ (sizeCandidates c) 0 (fun _ => 0) with h | h
        · rw [← hG] at h
          omega
        · rw [← hG] at h
          omega
      have hndd : (nondeletedOf c p₀).Nodup := (nodup_filter_ids hids _).of_map
      have hlt : (G.filter (fun v => v.file_path == p₀)).length < (nondeletedOf c p₀).length := by
        rw [← List.countP_eq_length_filter]
        exact hcnt
      obtain ⟨x, hx, hxnot⟩ := exists_not_mem_of_length_lt hndd hlt
      rcases mem_nondeletedOf.mp hx with ⟨h1, h2, h3⟩
      refine ⟨x, h1, h2, h3, ?_⟩
      intro hmem
      rcases List.mem_map.mp hmem with ⟨w, hw, hwid⟩
      have hwmem : w ∈ c.versions := (mem_sizeCandidates.mp (hGsub w hw)).1
      have hweq : w = x := rows_injOn_of_nodup_ids hids hwmem h1 hwid
      subst hweq
      apply hxnot
      rw [List.mem_filter]
      exact ⟨hw, by simp [h2]⟩

/-! ### Concrete states used by witnesses and counterexamples -/

/-- The seed-scenario catalog: `a.txt` with versions v1 (tagged
`stable`), v2, v3, all non-deleted. -/
def exCat1 : Catalog :=
  { versions := [
      { id := 1, file_path := "a.txt", version_number := 1, timestamp := 10,
        file_hash := "h1", file_size := 1, storage_path := "a.txt/v1_t10",
        deleted := false },
      { id := 2, file_path := "a.txt", version_number := 2, timestamp := 20,
        file_hash := "h2", file_size := 2, storage_path := "a.txt/v2_t20",
        deleted := false },
      { id := 3, file_path := "a.txt", version_number := 3, timestamp := 30,
        file_hash := "h3", file_size := 3, storage_path := "a.txt/v3_t30",
        deleted := false }],
    tags := [{ id := 1, version_id := 1, tag_name := "stable", created_at := 5 }] }

/-! ### Claim theorems -/

/-- C1: for every purge plan produced by the three retention
strategies on a catalog with unique version ids (the `id` primary
key), no tagged version's id appears in the plan, and every
`file_path` that has a non-deleted version before the purge keeps a
non-deleted version whose id is not in the plan. -/
theorem retention_plans_are_safe (c : Catalog)
    (hids : (c.versions.map (fun v => v.id)).Nodup) :
    (∀ (N : Int) (plan : List Nat),
      GetVersionsForPurge c N = some plan → PlanSafe c plan) ∧
    (∀ olderThan : Nat, PlanSafe c (GetVersionsForPurgeByAge c olderThan)) ∧
    (∀ maxSize : Nat, PlanSafe c (GetVersionsForPurgeBySize c maxSize)) := by
  refine ⟨?_, fun t => byAge_planSafe c hids t, fun s => bySize_planSafe c hids s⟩
  intro N plan h
  by_cases hN : N < 1
  · unfold GetVersionsForPurge at h
    rw [if_pos hN] at h
    cases h
  · push_neg at hN
    rw [getVersionsForPurge_eq c hN] at h
    have hplan := Option.some.inj h
    rw [← hplan]
    exact keepLast_planSafe c hids (by omega)

/-- Witness for C1: the uniqueness hypothesis holds on the seed
catalog and the theorem yields safety of its older-than(25) plan. -/
theorem retention_plans_are_safe_witness :
    (exCat1.versions.map (fun v => v.id)).Nodup ∧
      PlanSafe exCat1 (GetVersionsForPurgeByAge exCat1 25) :=
  ⟨by decide, (retention_plans_are_safe exCat1 (by decide)).2.1 25⟩

/-- C4: keep-last(N).  An input `N < 1` is rejected; the per-path
candidate lists are ordered by `version_number` descending; and for a
catalog with unique ids, a row's id is planned exactly when the row
sits at position ≥ N of its path's candidate list (so a path with at
most N candidates contributes nothing, since `drop` of a short list is
empty). -/
theorem keepLast_plan_characterization (c : Catalog)
    (hids : (c.versions.map (fun v => v.id)).Nodup) :
    (∀ N : Int, N < 1 → GetVersionsForPurge c N = none) ∧
    (∀ p : String, (keepLastCandidates c p).Sorted
      (fun a b => b.version_number ≤ a.version_number)) ∧
    (∀ (N : Int) (plan : List Nat), 1 ≤ N →
      GetVersionsForPurge c N = some plan →
      ∀ v ∈ c.versions,
        (v.id ∈ plan ↔ v ∈ (keepLastCandidates c v.file_path).drop N.toNat)) := by
  refine ⟨?_, ?_, ?_⟩
  · intro N hN
    unfold GetVersionsForPurge
    rw [if_pos hN]
  · intro p
    unfold keepLastCandidates sortVersionDesc
    haveI : IsTotal FileVersion (fun a b => b.version_number ≤ a.version_number) :=
      ⟨fun a b => Nat.le_total b.version_number a.version_number⟩
    haveI : IsTrans FileVersion (fun a b => b.version_number ≤ a.version_number) :=
      ⟨fun _ _ _ hab hbc => le_trans hbc hab⟩
    exact List.sorted_insertionSort _ _
  · intro N plan hN hplan v hv
    rw [getVersionsForPurge_eq c hN] at hplan
    have hplan' := Option.some.inj hplan
    rw [← hplan']
    constructor
    · intro hmem
      rcases mem_joinMap.mp hmem with ⟨p, _, hx⟩
      rcases List.mem_map.mp hx with ⟨w, hw, hwid⟩
      have hwc : w ∈ keepLastCandidates c p := List.drop_subset _ _ hw
      rcases mem_keepLastCandidates.mp hwc with ⟨hwmem, hwpath, _, _⟩
      have hweq : w = v := rows_injOn_of_nodup_ids hids hwmem hv hwid
      subst hweq
      rw [hwpath]
      exact hw
    · intro hdrop
      apply mem_joinMap.mpr
      refine ⟨v.file_path, ?_, List.mem_map.mpr ⟨v, hdrop, rfl⟩⟩
      exact List.mem_dedup.mpr (List.mem_map.mpr ⟨v, hv, rfl⟩)

/-- Witness for C4, instantiating the seed scenario: with v1 of
`a.txt` tagged and v2, v3 untagged, keep-last(1) plans exactly `[v2]`;
the characterization puts v2's id in the plan because v2 is at
position 1 of the candidate list `[v3, v2]`. -/
theorem keepLast_plan_characterization_witness :
    (exCat1.versions.map (fun v => v.id)).Nodup ∧
      GetVersionsForPurge exCat1 1 = some [2] ∧
      (∀ v ∈ exCat1.versions,
        (v.id ∈ [2] ↔ v ∈ (keepLastCandidates exCat1 v.file_path).drop (1 : Int).toNat)) :=
  ⟨by decide, by decide,
    (keepLast_plan_characterization exCat1 (by decide)).2.2 1 [2]
      (by decide) (by decide)⟩

/-- Spec-side older-than plan, written from the claim's words (C5):
candidates per path are the untagged, non-deleted versions with
`timestamp < C` in timestamp-descending order; when the candidate set
EQUALS the path's total non-deleted count the newest candidate
(position 0) is retained and the rest purged; otherwise all of the
path's candidates are purged. -/
def purgeByAgePlanSpec (c : Catalog) (olderThan : Nat) : List Nat :=
  joinMap (catalogPaths c) (fun p =>
    let cand := ageCandidates c olderThan p
    if cand.length = nondeletedCount c p then (cand.drop 1).map (fun v => v.id)
    else cand.map (fun v => v.id))

/-- C5: on a catalog with unique ids, the code's older-than plan
(`GetVersionsForPurgeByAge`, whose per-path branch tests
`candidates ≥ total non-deleted count`) coincides with the
specification's plan (branch tests equality), because a path's
candidates can never outnumber its non-deleted versions; and the
candidates are exactly the untagged, non-deleted versions older than
the cutoff. -/
theorem byAge_plan_matches_spec (c : Catalog)
    (hids : (c.versions.map (fun v => v.id)).Nodup) (olderThan : Nat) :
    GetVersionsForPurgeByAge c olderThan = purgeByAgePlanSpec c olderThan ∧
    (∀ (p : String) (v : FileVersion),
      v ∈ ageCandidates c olderThan p ↔
        v ∈ c.versions ∧ v.file_path = p ∧ v.deleted = false
          ∧ hasTag c v.id = false ∧ v.timestamp < olderThan) := by
  constructor
  · unfold GetVersionsForPurgeByAge purgeByAgePlanSpec
    apply joinMap_congr
    intro p
    have hle := ageCandidates_length_le olderThan p hids
    by_cases h : nondeletedCount c p ≤ (ageCandidates c olderThan p).length
    · rw [if_pos h, if_pos (by omega)]
    · rw [if_neg h, if_neg (by omega)]
  · intro p v
    exact mem_ageCandidates

/-- Witness for C5 on the seed catalog with cutoff 25: v2 (untagged,
older than the cutoff) is planned while tagged v1 and newer v3 are
not. -/
theorem byAge_plan_matches_spec_witness :
    (exCat1.versions.map (fun v => v.id)).Nodup ∧
      GetVersionsForPurgeByAge exCat1 25 = purgeByAgePlanSpec exCat1 25 ∧
      GetVersionsForPurgeByAge exCat1 25 = [2] :=
  ⟨by decide, (byAge_plan_matches_spec exCat1 (by decide) 25).1, by decide⟩

theorem latestStep_mem :
    ∀ (l : List FileVersion) (acc : Option FileVersion) (w : FileVersion),
      l.foldl latestStep acc = some w → w ∈ l ∨ acc = some w := by
  intro l
  induction l with
  | nil => intro acc w h; right; exact h
  | cons x t ih =>
    intro acc w h
    rw [List.foldl_cons] at h
    rcases ih (latestStep acc x) w h with hmem | hacc
    · left
      exact List.mem_cons_of_mem x hmem
    · cases acc with
      | none =>
        left
        simp only [latestStep] at hacc
        rw [← Option.some.inj hacc]
        exact List.mem_cons_self x t
      | some y =>
        simp only [latestStep] at hacc
        by_cases hy : y.version_number < x.version_number
        · rw [if_pos hy] at hacc
          left
          rw [← Option.some.inj hacc]
          exact List.mem_cons_self x t
        · rw [if_neg hy] at hacc
          right
          exact hacc

theorem foldl_latestStep_append_max {xs : List FileVersion} {v : FileVersion}
    (h : ∀ x ∈ xs, x.version_number < v.version_number) :
    (xs ++ [v]).foldl latestStep none = some v := by
  rw [List.foldl_append]
  cases hA : xs.foldl latestStep none with
  | none => rfl
  | some w =>
    rcases latestStep_mem xs none w hA with hmem | habs
    · have hlt := h w hmem
      simp only [List.foldl_cons, List.foldl_nil, latestStep, if_pos hlt]
    · cases habs

theorem le_foldl_max_init :
    ∀ (l : List FileVersion) (a : Nat),
      a ≤ l.foldl (fun acc w => max acc w.version_number) a := by
  intro l
  induction l with
  | nil => intro a; exact le_refl a
  | cons x t ih =>
    intro a
    exact le_trans (Nat.le_max_left _ _) (ih _)

theorem mem_le_foldl_max :
    ∀ (l : List FileVersion) (a : Nat) (x : FileVersion), x ∈ l →
      x.version_number ≤ l.foldl (fun acc w => max acc w.version_number) a := by
  intro l
  induction l with
  | nil => intro a x hx; cases hx
  | cons y t ih =>
    intro a x hx
    rcases List.mem_cons.mp hx with rfl | hx'
    · exact le_trans (Nat.le_max_right a x.version_number) (le_foldl_max_init t _)
    · exact ih _ x hx'

theorem getLatest_addFileToDatabase (c : Catalog) (relPath hash : String)
    (size now : Nat) (sp : String) :
    GetLatestFileVersion (addFileToDatabase c relPath hash size now sp).1 relPath
      = some { id := freshId c, file_path := relPath,
               version_number := GetNextVersionNumber c relPath, timestamp := now,
               file_hash := hash, file_size := size, storage_path := sp,
               deleted := false } := by
  unfold addFileToDatabase AddFileVersion GetLatestFileVersion
  simp only [List.filter_append]
  rw [List.filter_cons]
  simp only [beq_self_eq_true, if_pos, List.filter_nil]
  apply foldl_latestStep_append_max
  intro x hx
  have hxp : x ∈ c.versions.filter (fun v => v.file_path == relPath) := hx
  unfold GetNextVersionNumber
  have := mem_le_foldl_max (c.versions.filter (fun v => v.file_path == relPath)) 0 x hxp
  dsimp only
  omega

/-- C2: capture is idempotent.  Running `ProcessFile` twice with the
same content hash inserts at most one row in total: the second run
finds the latest row's `file_hash` equal to the hash, returns
`"unchanged"`, and performs no catalog or store writes. -/
theorem processFile_idempotent (c : Catalog) (relPath hash : String)
    (size now1 now2 : Nat) (sp1 sp2 : String) :
    (ProcessFile (ProcessFile c relPath hash size now1 sp1).catalog
        relPath hash size now2 sp2).action = "unchanged" ∧
    (ProcessFile (ProcessFile c relPath hash size now1 sp1).catalog
        relPath hash size now2 sp2).catalog
      = (ProcessFile c relPath hash size now1 sp1).catalog ∧
    (ProcessFile (ProcessFile c relPath hash size now1 sp1).catalog
        relPath hash size now2 sp2).storeWrites = [] ∧
    (ProcessFile c relPath hash size now1 sp1).catalog.versions.length
      ≤ c.versions.length + 1 := by
  have hsecond : ∀ c' : Catalog,
      GetLatestFileVersion c' relPath = some { id := freshId c,
                                               file_path := relPath,
                                               version_number := GetNextVersionNumber c relPath,
                                               timestamp := now1,
                                               file_hash := hash,
                                               file_size := size,
                                               storage_path := sp1,
                                               deleted := false } →
      ProcessFile c' relPath hash size now2 sp2
        = { action := "unchanged", catalog := c', storeWrites := [] } := by
    intro c' hlat
    unfold ProcessFile
    rw [hlat]
    simp
  cases hL : GetLatestFileVersion c relPath with
  | none =>
    have h1 : ProcessFile c relPath hash size now1 sp1
        = { action := "new",
            catalog := (addFileToDatabase c relPath hash size now1 sp1).1,
            storeWrites := (addFileToDatabase c relPath hash size now1 sp1).2 } := by
      unfold ProcessFile
      rw [hL]
    rw [h1]
    have h2 := hsecond (addFileToDatabase c relPath hash size now1 sp1).1
      (getLatest_addFileToDatabase c relPath hash size now1 sp1)
    rw [h2]
    refine ⟨rfl, rfl, rfl, ?_⟩
    unfold addFileToDatabase AddFileVersion
    simp
  | some w =>
    by_cases hh : w.file_hash = hash
    · have h1 : ProcessFile c relPath hash size now1 sp1
          = { action := "unchanged", catalog := c, storeWrites := [] } := by
        unfold ProcessFile
        rw [hL]
        simp [hh]
      rw [h1]
      have h2 : ProcessFile c relPath hash size now2 sp2
          = { action := "unchanged", catalog := c, storeWrites := [] } := by
        unfold ProcessFile
        rw [hL]
        simp [hh]
      rw [h2]
      exact ⟨rfl, rfl, rfl, by dsimp only; omega⟩
    · have h1 : ProcessFile c relPath hash size now1 sp1
          = { action := "updated",
              catalog := (addFileToDatabase c relPath hash size now1 sp1).1,
              storeWrites := (addFileToDatabase c relPath hash size now1 sp1).2 } := by
        unfold ProcessFile
        rw [hL]
        simp [hh]
      rw [h1]
      have h2 := hsecond (addFileToDatabase c relPath hash size now1 sp1).1
        (getLatest_addFileToDatabase c relPath hash size now1 sp1)
      rw [h2]
      refine ⟨rfl, rfl, rfl, ?_⟩
      unfold addFileToDatabase AddFileVersion
      simp

/-- A catalog reached through the engine's own operations: capture
`a.txt` (v1), mark it deleted (REMOVE event), then re-create it with
different content (v2).  v1 keeps `deleted = true`, v2 is live. -/
def reCreatedCatalog : Catalog :=
  let c1 := (ProcessFile { versions := [], tags := [] } "a.txt" "hx" 1 100
    "a.txt/v1_t100").catalog
  let c2 := (MarkFileDeleted c1 "a.txt" 102).getD c1
  (ProcessFile c2 "a.txt" "hy" 1 103 "a.txt/v2_t103").catalog

/-- C3: evaluation of the code at the failing input.  After `a.txt`
is captured, deleted, and re-created with different content, its
latest version is not deleted — yet `GetAllDeletedFiles` still
returns a row for `a.txt`, because its query keeps every path with
ANY `deleted = 1` row (`WHERE deleted = 1 GROUP BY file_path`)
instead of the paths whose LATEST row is deleted. -/
theorem allDeleted_returns_recreated_path :
    ((GetLatestFileVersion reCreatedCatalog "a.txt").map (fun v => v.deleted)
      = some false) ∧
    "a.txt" ∈ GetAllDeletedFilePaths reCreatedCatalog := by
  constructor
  · rfl
  · decide

/-- C6: evaluation of the code at the failing inputs.  In the store
step, a failed byte copy (`io.Copy`) or a failed `Sync` reports the
error with the partially written destination still on disk —
`copyFile` and `addFileToDatabase` unlink it only when the catalog
insert fails afterwards. -/
theorem store_failure_leaves_partial_snapshot :
    ((addFileToDatabaseEffect true true false true true).errored = true ∧
      (addFileToDatabaseEffect true true false true true).dstExists = true) ∧
    ((addFileToDatabaseEffect true true true false true).errored = true ∧
      (addFileToDatabaseEffect true true true false true).dstExists = true) ∧
    ((addFileToDatabaseEffect true true true true false).errored = true ∧
      (addFileToDatabaseEffect true true true true false).dstExists = false) := by
  decide

/-- The ignore decision as the specification words it (C7): the
matcher fires iff the relative-path computation succeeded and some
pattern matches — a directory pattern (trailing `/`) through a
component match on its prefix or a string-prefix match of the full
pattern against `rel ++ "/"`, any other pattern through a glob match
on the basename, the full relative path, or some component. -/
def IgnoreSpecProp (globMatch : String → String → Bool)
    (patterns : List String) (rel : Option String) : Prop :=
  ∃ relPath, rel = some relPath ∧ ∃ pattern ∈ patterns,
    if pattern.endsWith "/" then
      (∃ part ∈ relPath.splitOn "/", globMatch (pattern.dropRight 1) part = true)
      ∨ (relPath ++ "/").startsWith pattern = true
    else
      globMatch pattern (goBase relPath) = true ∨ globMatch pattern relPath = true
      ∨ ∃ part ∈ relPath.splitOn "/", globMatch pattern part = true

theorem patternMatches_iff (g : String → String → Bool) (pattern relPath : String) :
    patternMatches g pattern relPath = true ↔
      (if pattern.endsWith "/" then
        (∃ part ∈ relPath.splitOn "/", g (pattern.dropRight 1) part = true)
        ∨ (relPath ++ "/").startsWith pattern = true
      else
        g pattern (goBase relPath) = true ∨ g pattern relPath = true
        ∨ ∃ part ∈ relPath.splitOn "/", g pattern part = true) := by
  unfold patternMatches
  by_cases hdir : pattern.endsWith "/"
  · rw [if_pos hdir, if_pos hdir]
    simp [List.any_eq_true]
  · rw [if_neg hdir, if_neg hdir]
    simp [List.any_eq_true, or_assoc]

/-- C7: the embedded `Watch.ShouldIgnore` agrees with the
specification's description for every glob engine (Go `Match` errors
are absorbed into the engine returning `false`), every pattern list
and every relative-path outcome; in particular a failed relative-path
computation is fail-open `false`. -/
theorem shouldIgnore_matches_spec (globMatch : String → String → Bool)
    (patterns : List String) (rel : Option String) :
    (ShouldIgnore globMatch patterns rel = true ↔
      IgnoreSpecProp globMatch patterns rel) ∧
    ShouldIgnore globMatch patterns none = false := by
  refine ⟨?_, rfl⟩
  cases rel with
  | none =>
    simp only [ShouldIgnore, IgnoreSpecProp]
    constructor
    · intro h
      cases h
    · rintro ⟨relPath, h, -⟩
      cases h
  | some r =>
    simp only [ShouldIgnore, List.any_eq_true, IgnoreSpecProp]
    constructor
    · rintro ⟨pattern, hp, hm⟩
      exact ⟨r, rfl, pattern, hp, (patternMatches_iff globMatch pattern r).mp hm⟩
    · rintro ⟨r', hr', pattern, hp, hm⟩
      cases Option.some.inj hr'
      exact ⟨pattern, hp, (patternMatches_iff globMatch pattern r).mpr hm⟩

theorem find?_filter_of_imp {α : Type} (p f : α → Bool) (l : List α)
    (h : ∀ a, p a = true → f a = true) : (l.filter f).find? p = l.find? p := by
  induction l with
  | nil => rfl
  | cons a t ih =>
    rw [List.filter_cons]
    by_cases hf : f a = true
    · rw [if_pos hf]
      cases hp : p a with
      | true =>
        rw [List.find?_cons_of_pos _ hp, List.find?_cons_of_pos _ hp]
      | false =>
        rw [List.find?_cons_of_neg _ (by simp [hp]),
          List.find?_cons_of_neg _ (by simp [hp])]
        exact ih
    · rw [if_neg hf]
      have hp : p a = false := by
        cases hp' : p a with
        | true => exact absurd (h a hp') hf
        | false => rfl
      rw [List.find?_cons_of_neg _ (by simp [hp])]
      exact ih

theorem mem_of_debLookup_eq_some {m : DebMap} {k : String} {v : Nat}
    (h : debLookup m k = some v) : (k, v) ∈ m := by
  unfold debLookup at h
  cases hf : m.find? (fun q => q.1 == k) with
  | none => rw [hf] at h; cases h
  | some q =>
    rw [hf] at h
    have hq1 : q.1 = k := by
      have := List.find?_some hf
      exact beq_iff_eq.mp this
    have hq2 : q.2 = v := Option.some.inj h
    have hqm := List.mem_of_find?_eq_some hf
    have : q = (k, v) := by
      cases q
      simp only at hq1 hq2
      rw [hq1, hq2]
    rw [← this]
    exact hqm

theorem debLookup_eq_some_of_mem {m : DebMap}
    (hnd : (m.map Prod.fst).Nodup) {k : String} {v : Nat}
    (hmem : (k, v) ∈ m) : debLookup m k = some v := by
  induction m with
  | nil => cases hmem
  | cons q t ih =>
    rw [List.map_cons] at hnd
    have hnd' := List.nodup_cons.mp hnd
    rcases List.mem_cons.mp hmem with rfl | hmt
    · unfold debLookup
      rw [List.find?_cons_of_pos _ (by simp)]
      rfl
    · have hq1 : q.1 ≠ k := by
        intro he
        have hk : k ∈ t.map Prod.fst := List.mem_map.mpr ⟨(k, v), hmt, rfl⟩
        rw [← he] at hk
        exact hnd'.1 hk
      unfold debLookup
      rw [List.find?_cons_of_neg _ (by simp [hq1])]
      exact ih hnd'.2 hmt

theorem mem_debInsert {m : DebMap} {k : String} {now : Nat} {q : String × Nat} :
    q ∈ debInsert m k now ↔ q = (k, now) ∨ (q ∈ m ∧ q.1 ≠ k) := by
  unfold debInsert
  rw [List.mem_cons, List.mem_filter]
  simp

theorem debInsert_keys_nodup {m : DebMap} (k : String) (now : Nat)
    (hnd : (m.map Prod.fst).Nodup) :
    ((debInsert m k now).map Prod.fst).Nodup := by
  unfold debInsert
  rw [List.map_cons, List.nodup_cons]
  constructor
  · intro hmem
    rcases List.mem_map.mp hmem with ⟨q, hq, hq1⟩
    have := (List.mem_filter.mp hq).2
    simp at this
    exact this hq1
  · exact ((List.filter_sublist m).map Prod.fst).nodup hnd

theorem debCleanup_keys_nodup {m : DebMap} (now : Nat)
    (hnd : (m.map Prod.fst).Nodup) :
    ((debCleanup m now).map Prod.fst).Nodup := by
  unfold debCleanup
  split
  · exact ((List.filter_sublist m).map Prod.fst).nodup hnd
  · exact hnd

theorem mem_of_mem_debCleanup {m : DebMap} {now : Nat} {q : String × Nat}
    (h : q ∈ debCleanup m now) : q ∈ m := by
  unfold debCleanup at h
  split at h
  · exact (List.mem_filter.mp h).1
  · exact h

theorem mem_debCleanup_or_old {m : DebMap} {q : String × Nat} (now : Nat)
    (h : q ∈ m) : q ∈ debCleanup m now ∨ q.2 < now - 5000 := by
  unfold debCleanup
  split
  · by_cases hold : q.2 < now - 5000
    · right; exact hold
    · left
      rw [List.mem_filter]
      exact ⟨h, by simp [hold]⟩
  · left; exact h

theorem runAdmitted_subset :
    ∀ (l : List (String × Nat)) (m : DebMap), ∀ e ∈ runAdmitted m l, e ∈ l := by
  intro l
  induction l with
  | nil => intro m e he; cases he
  | cons q rest ih =>
    obtain ⟨k, tm⟩ := q
    intro m e he
    unfold runAdmitted at he
    by_cases hb : (shouldProcess m k tm).1 = true
    · rw [if_pos hb] at he
      rcases List.mem_cons.mp he with rfl | he'
      · exact List.mem_cons_self _ _
      · exact List.mem_cons_of_mem _ (ih _ e he')
    · rw [if_neg hb] at he
      exact List.mem_cons_of_mem _ (ih _ e he)

theorem shouldProcess_reject {m : DebMap} {k : String} {tm lastT : Nat}
    (hl : debLookup m k = some lastT) (hlt : tm - lastT < 100) :
    shouldProcess m k tm = (false, m) := by
  unfold shouldProcess
  simp only [hl, if_pos hlt]

theorem shouldProcess_admit_some {m : DebMap} {k : String} {tm lastT : Nat}
    (hl : debLookup m k = some lastT) (hge : ¬ tm - lastT < 100) :
    shouldProcess m k tm = (true, debCleanup (debInsert m k tm) tm) := by
  unfold shouldProcess
  simp only [hl, if_neg hge]

theorem shouldProcess_admit_none {m : DebMap} {k : String} {tm : Nat}
    (hl : debLookup m k = none) :
    shouldProcess m k tm = (true, debCleanup (debInsert m k tm) tm) := by
  unfold shouldProcess
  simp only [hl]

theorem shouldProcess_admit_snd {m : DebMap} {k : String} {now : Nat}
    (h : shouldProcess m k now = (true, debCleanup (debInsert m k now) now)) :
    (shouldProcess m k now).2 = debCleanup (debInsert m k now) now := by
  rw [h]

theorem debLookup_after_record (m : DebMap) (k : String) (tm : Nat)
    (hnd : (m.map Prod.fst).Nodup) :
    debLookup (debCleanup (debInsert m k tm) tm) k = some tm := by
  apply debLookup_eq_some_of_mem (debCleanup_keys_nodup tm (debInsert_keys_nodup k tm hnd))
  have hmem : (k, tm) ∈ debInsert m k tm := by
    unfold debInsert
    exact List.mem_cons_self _ _
  rcases mem_debCleanup_or_old tm hmem with h | h
  · exact h
  · have : tm < tm - 5000 := h
    omega

theorem runAdmitted_cons_true {m st' : DebMap} {k : String} {tm : Nat}
    {rest : List (String × Nat)} (hsp : shouldProcess m k tm = (true, st')) :
    runAdmitted m ((k, tm) :: rest) = (k, tm) :: runAdmitted st' rest := by
  conv_lhs => unfold runAdmitted
  rw [hsp]
  rfl

theorem runAdmitted_cons_reject {m : DebMap} {k : String} {tm : Nat}
    {rest : List (String × Nat)} (hsp : shouldProcess m k tm = (false, m)) :
    runAdmitted m ((k, tm) :: rest) = runAdmitted m rest := by
  conv_lhs => unfold runAdmitted
  rw [hsp]
  rfl

theorem runAdmitted_sep_step (key k : String) (tm : Nat)
    (rest : List (String × Nat)) (m : DebMap)
    (ih : ∀ (m' : DebMap), (m'.map Prod.fst).Nodup →
      List.Pairwise (fun a b => a.2 ≤ b.2) rest →
      (∀ q ∈ m', ∀ e ∈ rest, q.2 ≤ e.2) →
      List.Pairwise (fun a b => a + 100 ≤ b)
        (((runAdmitted m' rest).filter (fun e => e.1 == key)).map (fun e => e.2)) ∧
      (∀ t, debLookup m' key = some t →
        ∀ a ∈ ((runAdmitted m' rest).filter (fun e => e.1 == key)).map (fun e => e.2),
          t + 100 ≤ a))
    (hnd : (m.map Prod.fst).Nodup)
    (hsort' : List.Pairwise (fun a b => a.2 ≤ b.2) rest)
    (hheadle : ∀ e ∈ rest, tm ≤ e.2)
    (hboundrest : ∀ q ∈ m, ∀ e ∈ rest, q.2 ≤ e.2)
    (hgap : ∀ t, debLookup m k = some t → t ≤ tm ∧ ¬ tm - t < 100) :
    List.Pairwise (fun a b => a + 100 ≤ b)
      ((((k, tm) :: runAdmitted (debCleanup (debInsert m k tm) tm) rest).filter
        (fun e => e.1 == key)).map (fun e => e.2)) ∧
    (∀ t, debLookup m key = some t →
      ∀ a ∈ (((k, tm) :: runAdmitted (debCleanup (debInsert m k tm) tm) rest).filter
        (fun e => e.1 == key)).map (fun e => e.2),
        t + 100 ≤ a) := by
  set st' := debCleanup (debInsert m k tm) tm with hst'
  have hnd' : (st'.map Prod.fst).Nodup :=
    debCleanup_keys_nodup tm (debInsert_keys_nodup k tm hnd)
  have hbound' : ∀ q ∈ st', ∀ e ∈ rest, q.2 ≤ e.2 := by
    intro q hq e he
    rcases mem_debInsert.mp (mem_of_mem_debCleanup hq) with rfl | ⟨hqm, _⟩
    · exact hheadle e he
    · exact hboundrest q hqm e he
  have IH := ih st' hnd' hsort' hbound'
  by_cases hkey : k = key
  · subst hkey
    rw [List.filter_cons_of_pos (by simp)]
    rw [List.map_cons]
    have hlook' : debLookup st' k = some tm := debLookup_after_record m k tm hnd
    have htail := IH.2 tm hlook'
    constructor
    · exact List.pairwise_cons.mpr ⟨fun a ha => htail a ha, IH.1⟩
    · intro t ht a ha
      obtain ⟨hle, hge⟩ := hgap t ht
      rcases List.mem_cons.mp ha with rfl | ha'
      · omega
      · have := htail a ha'
        omega
  · rw [List.filter_cons_of_neg (by simp [hkey])]
    refine ⟨IH.1, ?_⟩
    intro t ht a ha
    have htm : (key, t) ∈ m := mem_of_debLookup_eq_some ht
    have htm' : (key, t) ∈ debInsert m k tm :=
      mem_debInsert.mpr (Or.inr ⟨htm, fun he => hkey he.symm⟩)
    rcases mem_debCleanup_or_old tm htm' with hin | hold
    · rw [← hst'] at hin
      exact IH.2 t (debLookup_eq_some_of_mem hnd' hin) a ha
    · have holdt : t < tm - 5000 := hold
      rcases List.mem_map.mp ha with ⟨e, he, hea⟩
      have herest : e ∈ rest := runAdmitted_subset rest st' e (List.mem_filter.mp he).1
      have : tm ≤ e.2 := hheadle e herest
      omega

theorem runAdmitted_sep (key : String) :
    ∀ (l : List (String × Nat)) (m : DebMap),
      (m.map Prod.fst).Nodup →
      List.Pairwise (fun a b => a.2 ≤ b.2) l →
      (∀ q ∈ m, ∀ e ∈ l, q.2 ≤ e.2) →
      List.Pairwise (fun a b => a + 100 ≤ b)
        (((runAdmitted m l).filter (fun e => e.1 == key)).map (fun e => e.2)) ∧
      (∀ t, debLookup m key = some t →
        ∀ a ∈ ((runAdmitted m l).filter (fun e => e.1 == key)).map (fun e => e.2),
          t + 100 ≤ a) := by
  intro l
  induction l with
  | nil =>
    intro m _ _ _
    exact ⟨List.Pairwise.nil, fun t _ a ha => absurd ha (List.not_mem_nil a)⟩
  | cons q rest ih =>
    obtain ⟨k, tm⟩ := q
    intro m hnd hsort hbound
    have hsort' : List.Pairwise (fun a b => a.2 ≤ b.2) rest := hsort.of_cons
    have hheadle : ∀ e ∈ rest, tm ≤ e.2 := (List.pairwise_cons.mp hsort).1
    have hboundrest : ∀ q ∈ m, ∀ e ∈ rest, q.2 ≤ e.2 :=
      fun q hq e he => hbound q hq e (List.mem_cons_of_mem _ he)
    cases hlk : debLookup m k with
    | some lastT =>
      by_cases hlt : tm - lastT < 100
      · rw [runAdmitted_cons_reject (shouldProcess_reject hlk hlt)]
        exact ih m hnd hsort' hboundrest
      · rw [runAdmitted_cons_true (shouldProcess_admit_some hlk hlt)]
        have hlastle : lastT ≤ tm :=
          hbound (k, lastT) (mem_of_debLookup_eq_some hlk) (k, tm) (List.mem_cons_self _ _)
        apply runAdmitted_sep_step key k tm rest m ih hnd hsort' hheadle hboundrest
        intro t ht
        rw [hlk] at ht
        rw [← Option.some.inj ht]
        exact ⟨hlastle, hlt⟩
    | none =>
      rw [runAdmitted_cons_true (shouldProcess_admit_none hlk)]
      apply runAdmitted_sep_step key k tm rest m ih hnd hsort' hheadle hboundrest
      intro t ht
      rw [hlk] at ht
      cases ht

/-- C8: the debouncer keys events by `path ++ ":" ++ kind` and stores
the last admitted time per key; an event is admitted iff the map holds
no entry for its key within the last 100 ms; consequently, in any
monotone trace processed from the initial empty map, the admitted
events of one key are pairwise at least 100 ms apart; and when the map
exceeds 1000 keys after recording an event, every entry older than 5 s
is evicted in bulk. -/
theorem debouncer_debounces (path kind : String) :
    (∀ (m : DebMap) (now : Nat),
      (shouldProcess m (debKey path kind) now).1 = true ↔
        (∀ t, debLookup m (debKey path kind) = some t → 100 ≤ now - t)) ∧
    (∀ (m : DebMap) (now : Nat),
      (shouldProcess m (debKey path kind) now).1 = true →
      1000 < (debInsert m (debKey path kind) now).length →
      ∀ q ∈ (shouldProcess m (debKey path kind) now).2, now - 5000 ≤ q.2) ∧
    (∀ l : List (String × Nat),
      List.Pairwise (fun a b => a.2 ≤ b.2) l →
      List.Pairwise (fun a b => a + 100 ≤ b)
        (((runAdmitted [] l).filter (fun e => e.1 == debKey path kind)).map
          (fun e => e.2))) := by
  refine ⟨?_, ?_, ?_⟩
  · intro m now
    cases hl : debLookup m (debKey path kind) with
    | none =>
      rw [shouldProcess_admit_none hl]
      constructor
      · intro _ t ht
        cases ht
      · intro _
        rfl
    | some lastT =>
      by_cases hlt : now - lastT < 100
      · rw [shouldProcess_reject hl hlt]
        constructor
        · intro h
          cases h
        · intro h
          have := h lastT rfl
          omega
      · rw [shouldProcess_admit_some hl hlt]
        constructor
        · intro _ t ht
          have := Option.some.inj ht
          omega
        · intro _
          rfl
  · intro m now hadm hlen q hq
    cases hl : debLookup m (debKey path kind) with
    | none =>
      rw [shouldProcess_admit_snd (shouldProcess_admit_none hl)] at hq
      unfold debCleanup at hq
      rw [if_pos hlen] at hq
      have := (List.mem_filter.mp hq).2
      simp at this
      omega
    | some lastT =>
      by_cases hlt : now - lastT < 100
      · rw [shouldProcess_reject hl hlt] at hadm
        exact absurd hadm (by simp)
      · rw [shouldProcess_admit_snd (shouldProcess_admit_some hl hlt)] at hq
        unfold debCleanup at hq
        rw [if_pos hlen] at hq
        have := (List.mem_filter.mp hq).2
        simp at this
        omega
  · intro l hsort
    exact (runAdmitted_sep (debKey path kind) l [] (by simp) hsort
      (fun q hq => absurd hq (List.not_mem_nil q))).1

set_option maxRecDepth 8192 in
/-- Witness for C8: the trace WRITE@0ms, WRITE@50ms, WRITE@120ms on
one path is monotone, and the theorem yields the 100 ms separation of
its admitted events (the debouncer admits the events at 0 and 120 and
drops the one at 50). -/
theorem debouncer_debounces_witness :
    List.Pairwise (fun (a b : String × Nat) => a.2 ≤ b.2)
      [(debKey "a" "WRITE", 0), (debKey "a" "WRITE", 50), (debKey "a" "WRITE", 120)] ∧
    List.Pairwise (fun a b => a + 100 ≤ b)
      (((runAdmitted []
        [(debKey "a" "WRITE", 0), (debKey "a" "WRITE", 50), (debKey "a" "WRITE", 120)]).filter
          (fun e => e.1 == debKey "a" "WRITE")).map (fun e => e.2)) :=
  ⟨by decide, (debouncer_debounces "a" "WRITE").2.2
    [(debKey "a" "WRITE", 0), (debKey "a" "WRITE", 50), (debKey "a" "WRITE", 120)]
    (by decide)⟩

/-- Version 1 of `a.txt` in the rollback examples. -/
def rbV1 : FileVersion :=
  { id := 1, file_path := "a.txt", version_number := 1, timestamp := 10,
    file_hash := "h1", file_size := 1, storage_path := "a.txt/v1_t10",
    deleted := false }

/-- Version 2 (the latest) of `a.txt` in the rollback examples. -/
def rbV2 : FileVersion :=
  { id := 2, file_path := "a.txt", version_number := 2, timestamp := 20,
    file_hash := "h2", file_size := 2, storage_path := "a.txt/v2_t20",
    deleted := false }

/-- A two-version catalog for the rollback examples. -/
def rbCatalog : Catalog := { versions := [rbV1, rbV2], tags := [] }

/-- A filesystem whose snapshot store is missing v1's snapshot file. -/
def rbFSMissing : RollbackFS :=
  { currentContent := some "curbytes",
    snapshots := [("a.txt/v2_t20", "bytes2")] }

/-- A filesystem with both snapshots present. -/
def rbFS : RollbackFS :=
  { currentContent := some "curbytes",
    snapshots := [("a.txt/v1_t10", "bytes1"), ("a.txt/v2_t20", "bytes2")] }

/-- The preconditions under which `performRollback` succeeds: the
target version exists, is not deleted, and its stored snapshot file
exists; the latest version's number differs from the target; and the
current working-tree file exists. -/
def RollbackPre (c : Catalog) (fs : RollbackFS) (relPath : String) (n : Nat) : Prop :=
  (∃ target, GetFileVersion c relPath n = some target ∧ target.deleted = false ∧
    (snapshotContent fs target.storage_path).isSome = true) ∧
  (∃ latest, GetLatestFileVersion c relPath = some latest ∧ latest.version_number ≠ n) ∧
  fs.currentContent.isSome = true

/-- C9 counterexample: a state where the claim's three preconditions
hold (target v1 exists undeleted, latest is v2 ≠ 1, the current file
exists) and yet rollback to v1 fails with no mutation, because the
stored snapshot of v1 is missing (sanity check 7 of
`performRollback`). -/
theorem rollback_fails_despite_claimed_preconditions :
    (GetFileVersion rbCatalog "a.txt" 1 = some rbV1) ∧
    rbV1.deleted = false ∧
    (GetLatestFileVersion rbCatalog "a.txt" = some rbV2) ∧
    rbV2.version_number ≠ 1 ∧
    rbFSMissing.currentContent.isSome = true ∧
    performRollback (fun s => s) rbCatalog rbFSMissing "a.txt" 1 30 "a.txt/v3_t30"
      = { ok := false, catalog := rbCatalog, fs := rbFSMissing } := by
  refine ⟨rfl, rfl, rfl, by decide, rfl, ?_⟩
  rfl

/-- C9 (amended): every failing `performRollback` leaves the catalog
and the filesystem untouched; success implies the preconditions
(including existence of the target's stored snapshot); and under the
preconditions the result is: when the current content's hash differs
from the latest row's, a new version capturing the current content is
inserted (with the next version number and the current hash) and its
bytes stored, and in every success case the stored snapshot of the
target is copied over the current file. -/
theorem performRollback_spec (hash : String → String) (c : Catalog)
    (fs : RollbackFS) (relPath : String) (n mtime : Nat) (sp : String) :
    ((performRollback hash c fs relPath n mtime sp).ok = false →
      performRollback hash c fs relPath n mtime sp
        = { ok := false, catalog := c, fs := fs }) ∧
    ((performRollback hash c fs relPath n mtime sp).ok = true →
      RollbackPre c fs relPath n) ∧
    (∀ target latest content stored,
      GetFileVersion c relPath n = some target → target.deleted = false →
      GetLatestFileVersion c relPath = some latest → latest.version_number ≠ n →
      fs.currentContent = some content →
      snapshotContent fs target.storage_path = some stored →
      performRollback hash c fs relPath n mtime sp =
        (if hash content = latest.file_hash then
          { ok := true, catalog := c,
            fs := { currentContent := some stored, snapshots := fs.snapshots } }
        else
          { ok := true,
            catalog := AddFileVersion c
              { id := freshId c, file_path := relPath,
                version_number := GetNextVersionNumber c relPath,
                timestamp := mtime, file_hash := hash content,
                file_size := content.length, storage_path := sp,
                deleted := false },
            fs := { currentContent := some stored,
                    snapshots := fs.snapshots ++ [(sp, content)] } })) := by
  have hsucc : ∀ target latest content stored,
      GetFileVersion c relPath n = some target → target.deleted = false →
      GetLatestFileVersion c relPath = some latest → latest.version_number ≠ n →
      fs.currentContent = some content →
      snapshotContent fs target.storage_path = some stored →
      performRollback hash c fs relPath n mtime sp =
        (if hash content = latest.file_hash then
          { ok := true, catalog := c,
            fs := { currentContent := some stored, snapshots := fs.snapshots } }
        else
          { ok := true,
            catalog := AddFileVersion c
              { id := freshId c, file_path := relPath,
                version_number := GetNextVersionNumber c relPath,
                timestamp := mtime, file_hash := hash content,
                file_size := content.length, storage_path := sp,
                deleted := false },
            fs := { currentContent := some stored,
                    snapshots := fs.snapshots ++ [(sp, content)] } }) := by
    intro target latest content stored h1 hdel hl hne hc hs
    unfold performRollback
    simp only [h1, hdel, Bool.false_eq_true, if_false, hl, if_neg hne, hc, hs]
    by_cases hh : hash content = latest.file_hash
    · simp only [if_pos hh]
    · simp only [if_neg hh]
      unfold saveCurrentFileAsNewVersion
      rfl
  have hshape :
      performRollback hash c fs relPath n mtime sp
          = { ok := false, catalog := c, fs := fs }
      ∨ (RollbackPre c fs relPath n
          ∧ (performRollback hash c fs relPath n mtime sp).ok = true) := by
    cases h1 : GetFileVersion c relPath n with
    | none =>
      left
      unfold performRollback
      simp only [h1]
    | some target =>
      cases hdel : target.deleted with
      | true =>
        left
        unfold performRollback
        simp only [h1, hdel, if_true]
      | false =>
        cases hl : GetLatestFileVersion c relPath with
        | none =>
          left
          unfold performRollback
          simp only [h1, hdel, Bool.false_eq_true, if_false, hl]
        | some latest =>
          by_cases heq : latest.version_number = n
          · left
            unfold performRollback
            simp only [h1, hdel, Bool.false_eq_true, if_false, hl, if_pos heq]
          · cases hc : fs.currentContent with
            | none =>
              left
              unfold performRollback
              simp only [h1, hdel, Bool.false_eq_true, if_false, hl, if_neg heq, hc]
            | some content =>
              cases hs : snapshotContent fs target.storage_path with
              | none =>
                left
                unfold performRollback
                simp only [h1, hdel, Bool.false_eq_true, if_false, hl,
                  if_neg heq, hc, hs]
              | some stored =>
                right
                have hR := hsucc target latest content stored h1 hdel hl heq hc hs
                constructor
                · exact ⟨⟨target, h1, hdel, by rw [hs]; rfl⟩,
                    ⟨latest, hl, heq⟩, by rw [hc]; rfl⟩
                · rw [hR]
                  by_cases hh : hash content = latest.file_hash
                  · rw [if_pos hh]
                  · rw [if_neg hh]
  refine ⟨?_, ?_, hsucc⟩
  · intro hok
    rcases hshape with hR | hR2
    · exact hR
    · rw [hR2.2] at hok
      cases hok
  · intro hok
    rcases hshape with hR | hR2
    · rw [hR] at hok
      cases hok
    · exact hR2.1

/-- Witness for C9's amended theorem: rollback of `a.txt` to v1 in the
two-version catalog with both snapshots present and a current content
whose hash differs from v2's; the theorem yields the success equation,
whose else-branch (save current state as v3, then copy v1's snapshot
over the file) is the one taken. -/
theorem performRollback_spec_witness :
    (GetFileVersion rbCatalog "a.txt" 1 = some rbV1) ∧
    rbV1.deleted = false ∧
    (GetLatestFileVersion rbCatalog "a.txt" = some rbV2) ∧
    rbV2.version_number ≠ 1 ∧
    (rbFS.currentContent = some "curbytes") ∧
    (snapshotContent rbFS rbV1.storage_path = some "bytes1") ∧
    performRollback (fun s => s) rbCatalog rbFS "a.txt" 1 30 "a.txt/v3_t30"
      = (if ((fun s : String => s) "curbytes") = rbV2.file_hash then
          { ok := true, catalog := rbCatalog,
            fs := { currentContent := some "bytes1", snapshots := rbFS.snapshots } }
        else
          { ok := true,
            catalog := AddFileVersion rbCatalog
              { id := freshId rbCatalog, file_path := "a.txt",
                version_number := GetNextVersionNumber rbCatalog "a.txt",
                timestamp := 30, file_hash := (fun s : String => s) "curbytes",
                file_size := ("curbytes").length, storage_path := "a.txt/v3_t30",
                deleted := false },
            fs := { currentContent := some "bytes1",
                    snapshots := rbFS.snapshots ++ [("a.txt/v3_t30", "curbytes")] } }) :=
  ⟨rfl, rfl, rfl, by decide, rfl, rfl,
    (performRollback_spec (fun s => s) rbCatalog rbFS "a.txt" 1 30 "a.txt/v3_t30").2.2
      rbV1 rbV2 "curbytes" "bytes1" rfl rfl rfl (by decide) rfl rfl⟩

/-- A two-version catalog (both undeleted) with no tags yet. -/
def tagCat0 : Catalog := { versions := [rbV1, rbV2], tags := [] }

/-- `tagCat0` after tagging v1 with `stable`. -/
def tagCat1 : Catalog := (AddTag tagCat0 "a.txt" 1 "stable" 50 1).getD tagCat0

/-- `tagCat1` after also tagging v2 with `stable`. -/
def tagCat2 : Catalog := (AddTag tagCat1 "a.txt" 2 "stable" 60 2).getD tagCat1

/-- The `(version_id, tag_name)` pairs of the catalog's tag rows — the
columns of the `UNIQUE(version_id, tag_name)` constraint. -/
def tagPairs (c : Catalog) : List (Nat × String) :=
  c.tags.map (fun t => (t.version_id, t.tag_name))

/-- C10 counterexample: starting from two undeleted versions of
`a.txt`, `AddTag` accepts `stable` on v1 and then also on v2 — the
insert that attaches the same tag name to a second undeleted version
of the same file is NOT rejected (the `UNIQUE` constraint only covers
`(version_id, tag_name)`), so two undeleted versions of one path carry
the same tag and `version_by_tag` does not denote a unique version. -/
theorem addTag_accepts_same_tag_on_second_version :
    AddTag tagCat0 "a.txt" 1 "stable" 50 1 = some tagCat1 ∧
    AddTag tagCat1 "a.txt" 2 "stable" 60 2 = some tagCat2 ∧
    (tagCat2.versions.filter (fun v => v.file_path == "a.txt" && !v.deleted
      && tagCat2.tags.any (fun t => t.version_id == v.id
        && t.tag_name == "stable"))).length = 2 := by
  refine ⟨?_, ?_, ?_⟩
  · rfl
  · rfl
  · rfl

/-- C10 (amended): the uniqueness that the code maintains is per
`(version_id, tag_name)`: `AddTag` fails exactly when the addressed
undeleted `(file_path, version_number)` row is missing or that exact
version already carries the tag name, and a successful `AddTag`
preserves distinctness of the `(version_id, tag_name)` pairs. -/
theorem addTag_per_version_uniqueness (c : Catalog) (p : String) (n : Nat)
    (tagName : String) (now tid : Nat) :
    (AddTag c p n tagName now tid = none ↔
      (c.versions.find? (fun v => v.file_path == p && v.version_number == n
        && !v.deleted) = none
      ∨ ∃ v, c.versions.find? (fun v => v.file_path == p && v.version_number == n
          && !v.deleted) = some v
        ∧ c.tags.any (fun t => t.version_id == v.id && t.tag_name == tagName) = true)) ∧
    (∀ c', AddTag c p n tagName now tid = some c' →
      (tagPairs c).Nodup → (tagPairs c').Nodup) := by
  constructor
  · cases hf : c.versions.find? (fun v => v.file_path == p && v.version_number == n
        && !v.deleted) with
    | none =>
      unfold AddTag
      rw [hf]
      simp
    | some v =>
      unfold AddTag
      simp only [hf]
      by_cases hdup : c.tags.any (fun t => t.version_id == v.id
          && t.tag_name == tagName) = true
      · rw [if_pos hdup]
        constructor
        · intro _
          exact Or.inr ⟨v, rfl, hdup⟩
        · intro _
          rfl
      · rw [if_neg hdup]
        constructor
        · intro h
          cases h
        · intro h
          rcases h with h | ⟨v', hv', hany⟩
          · cases h
          · rw [← Option.some.inj hv'] at hany
            exact absurd hany hdup
  · intro c' hadd hnd
    unfold AddTag at hadd
    cases hf : c.versions.find? (fun v => v.file_path == p && v.version_number == n
        && !v.deleted) with
    | none =>
      rw [hf] at hadd
      cases hadd
    | some v =>
      simp only [hf] at hadd
      by_cases hdup : c.tags.any (fun t => t.version_id == v.id
          && t.tag_name == tagName) = true
      · rw [if_pos hdup] at hadd
        cases hadd
      · rw [if_neg hdup] at hadd
        rw [← Option.some.inj hadd]
        unfold tagPairs
        dsimp only
        rw [List.map_append, List.nodup_append]
        refine ⟨hnd, List.nodup_singleton _, ?_⟩
        intro a ha hb
        rcases List.mem_map.mp ha with ⟨t, ht, hta⟩
        have hav : a = (v.id, tagName) := List.mem_singleton.mp hb
        apply hdup
        rw [List.any_eq_true]
        refine ⟨t, ht, ?_⟩
        rw [hav] at hta
        have h1 : t.version_id = v.id := congrArg Prod.fst hta
        have h2 : t.tag_name = tagName := congrArg Prod.snd hta
        simp [h1, h2]

/-- Witness for C10's amended theorem: tagging v1 of `a.txt` with
`stable` succeeds, and the theorem carries the distinctness of
`(version_id, tag_name)` pairs from the empty-tag catalog to the
result. -/
theorem addTag_per_version_uniqueness_witness :
    AddTag tagCat0 "a.txt" 1 "stable" 50 1 = some tagCat1 ∧
    (tagPairs tagCat0).Nodup ∧ (tagPairs tagCat1).Nodup :=
  ⟨rfl, by decide,
    (addTag_per_version_uniqueness tagCat0 "a.txt" 1 "stable" 50 1).2 tagCat1
      rfl (by decide)⟩

end Rewind
